import Mathlib

/-!
Shallow embedding of the `max-entropy` notebook (pwsiegel/neural-entropy).

The notebook builds, for a die with `num_faces` faces and a target mean,
the constraint system `A x = b` with `A = [ones; (1..n)]`, `b = (1, mean)`,
computes an orthogonal projector onto the solution hyperplane from the
singular value decomposition of `A`, and runs projected gradient descent on
the negative entropy of the probability vector.

The numerical collaborators (`torch.linalg.svd`, `torch.linalg.lstsq`,
autodiff) are modelled by their contracts:

* `SVDData` packages matrices `U`, `S`, `V` with `A = U Σ Vᵀ` and orthogonal
  `U`, `V`, exactly what `torch.linalg.svd` returns (`S` has `min m n`
  entries, zeros included);
* `LstsqData` packages a vector minimizing the residual `‖A x − b‖²` and,
  among residual minimizers, of minimal norm (the LAPACK gelsy/gelsd
  contract used by `torch.linalg.lstsq`);
* the gradient consumed by `optimizer.step()` is the true derivative of the
  loss, which is the contract of reverse-mode autodiff on a smooth function.

Everything downstream of these contracts is translated directly from the
notebook: `Kmat` is `V[:, len(S):]`, `Pmat` is `K Kᵀ`, the projector is
`x ↦ v + P (x − v)`, the loop is `p ↦ project (p − lr * grad)`.
-/

noncomputable section

open scoped BigOperators

open Matrix

/-- The `m × n` matrix `diag(S)` padded with zeros, as produced by
`torch.linalg.svd`: entry `(i, j)` is `S i` when `i = j < min m n`, else `0`. -/
def sigmaMat (m n : ℕ) (S : Fin (min m n) → ℝ) : Matrix (Fin m) (Fin n) ℝ :=
  Matrix.of fun i j =>
    if h : (i : ℕ) = (j : ℕ) ∧ (j : ℕ) < min m n then S ⟨(j : ℕ), h.2⟩ else 0

/-- Contract of `torch.linalg.svd` on an `m × n` real matrix `A`: orthogonal
`U` and `V` and a vector `S` of `min m n` singular values (zeros included for
rank-deficient `A`) with `A = U Σ Vᵀ`. -/
structure SVDData (m n : ℕ) (A : Matrix (Fin m) (Fin n) ℝ) where
  U : Matrix (Fin m) (Fin m) ℝ
  S : Fin (min m n) → ℝ
  V : Matrix (Fin n) (Fin n) ℝ
  hU : Uᵀ * U = 1
  hV : Vᵀ * V = 1
  hA : A = U * sigmaMat m n S * Vᵀ

/-- The notebook's `K = V[:, len(S):]`: the last `n - min m n` columns of `V`. -/
def Kmat (m n : ℕ) (V : Matrix (Fin n) (Fin n) ℝ) :
    Matrix (Fin n) (Fin (n - min m n)) ℝ :=
  Matrix.of fun i j => V i ⟨min m n + (j : ℕ), by have h := j.isLt; omega⟩

/-- The notebook's `P = torch.mm(K, torch.transpose(K, 0, 1))`. -/
def Pmat (m n : ℕ) (V : Matrix (Fin n) (Fin n) ℝ) : Matrix (Fin n) (Fin n) ℝ :=
  Kmat m n V * (Kmat m n V)ᵀ

/-- The affine map `x ↦ v + P (x − v)` returned (as a closure over `P` and
`v`) by `_compute_constraint_projector`. -/
def projectFun {n : ℕ} (P : Matrix (Fin n) (Fin n) ℝ) (v x : Fin n → ℝ) :
    Fin n → ℝ :=
  v + P.mulVec (x - v)

/-- Squared residual `‖A x − b‖²` of a candidate solution of `A x = b`. -/
def resid {m n : ℕ} (A : Matrix (Fin m) (Fin n) ℝ) (b : Fin m → ℝ)
    (x : Fin n → ℝ) : ℝ :=
  ∑ i, (A.mulVec x i - b i) ^ 2

/-- Squared Euclidean norm of a vector. -/
def sumSq {n : ℕ} (x : Fin n → ℝ) : ℝ :=
  ∑ i, x i ^ 2

/-- Contract of `torch.linalg.lstsq(A, b).solution`: a vector minimizing the
residual `‖A x − b‖²`, and of minimal norm among residual minimizers (the
LAPACK gelsy/gelsd behaviour backing `torch.linalg.lstsq` on CPU). -/
structure LstsqData (m n : ℕ) (A : Matrix (Fin m) (Fin n) ℝ) (b : Fin m → ℝ) where
  solution : Fin n → ℝ
  h_min_resid : ∀ y, resid A b solution ≤ resid A b y
  h_min_norm : ∀ y, resid A b y ≤ resid A b solution → sumSq solution ≤ sumSq y

/-- The notebook's `_compute_constraint_projector`: from the SVD of `A` form
`K` and `P = K Kᵀ`, take the least-squares solution `v` of `A x = b`, and
return `lambda x: v + torch.mm(P, x - v)`. -/
def compute_constraint_projector {m n : ℕ} {A : Matrix (Fin m) (Fin n) ℝ}
    {b : Fin m → ℝ} (d : SVDData m n A) (l : LstsqData m n A b) :
    (Fin n → ℝ) → (Fin n → ℝ) :=
  projectFun (Pmat m n d.V) l.solution

/-- The constraint matrix built in `_compute_constraint_projector`:
row 0 is all ones (`probability_coeffs`), row 1 is `1, 2, …, n`
(`mean_coeffs`). -/
def diceA (n : ℕ) : Matrix (Fin 2) (Fin n) ℝ :=
  Matrix.of ![fun _ => 1, fun j => ((j : ℕ) + 1 : ℝ)]

/-- The right-hand side `b = (1, mean_constraint)` built in
`_compute_constraint_projector`. -/
def diceB (mc : ℝ) : Fin 2 → ℝ :=
  ![1, mc]

/-- State of the `MaxEntropyDice` module: the scalar fields set in
`__init__`, the projector closure, and the parameter vector `p`. -/
structure MaxEntropyDice (n : ℕ) where
  num_faces : ℕ
  mean_constraint : ℝ
  constraint_projector : (Fin n → ℝ) → (Fin n → ℝ)
  p : Fin n → ℝ

/-- The notebook's `enforce_constraint`: `p ← constraint_projector(p)`,
leaving every other field of the module unchanged. -/
def enforce_constraint {n : ℕ} (s : MaxEntropyDice n) : MaxEntropyDice n :=
  { s with p := s.constraint_projector s.p }

/-- Entropy `−Σ pᵢ log pᵢ` of a vector, as computed by `forward`. -/
def entropyOf {n : ℕ} (p : Fin n → ℝ) : ℝ :=
  -(∑ i, p i * Real.log (p i))

/-- The notebook's `forward`: returns the entropy of the current `p`; it is a
pure function of the state. -/
def forward {n : ℕ} (s : MaxEntropyDice n) : ℝ :=
  entropyOf s.p

/-- The loss minimized in the training loop: `loss = -model()`, i.e.
`Σ pᵢ log pᵢ` (negative entropy). -/
def lossFun (n : ℕ) (p : Fin n → ℝ) : ℝ :=
  ∑ i, p i * Real.log (p i)

/-- The gradient delivered by `loss.backward()`: reverse-mode autodiff on a
smooth function returns its exact partial derivatives, so component `i` is
the derivative of the loss as a function of `p i` alone. -/
def autodiffGrad (n : ℕ) (p : Fin n → ℝ) (i : Fin n) : ℝ :=
  deriv (fun t => lossFun n (Function.update p i t)) (p i)

/-- One `optimizer.step()` of `torch.optim.SGD` with learning rate `lr` (no
momentum): `p ← p − lr * grad`. -/
def sgdStep (n : ℕ) (lr : ℝ) (p : Fin n → ℝ) : Fin n → ℝ :=
  fun i => p i - lr * autodiffGrad n p i

/-- The closed-form update `pᵢ ← pᵢ − lr * (log pᵢ + 1)` named by the spec. -/
def closedFormStep (n : ℕ) (lr : ℝ) (p : Fin n → ℝ) : Fin n → ℝ :=
  fun i => p i - lr * (Real.log (p i) + 1)

/-- One iteration of the training loop: `zero_grad`, `loss.backward()`,
`optimizer.step()`, then `enforce_constraint` (projection). -/
def loopStep (n : ℕ) (proj : (Fin n → ℝ) → (Fin n → ℝ)) (lr : ℝ)
    (p : Fin n → ℝ) : Fin n → ℝ :=
  proj (sgdStep n lr p)

/-- The training loop: `iters` iterations of `loopStep` from `p0`. -/
def runLoop (n : ℕ) (proj : (Fin n → ℝ) → (Fin n → ℝ)) (lr : ℝ)
    (iters : ℕ) (p0 : Fin n → ℝ) : Fin n → ℝ :=
  (loopStep n proj lr)^[iters] p0

/- ### Algebraic facts about `K` and `P` derived from the SVD contract -/

/-- Column `j` of `Kmat` is column `min m n + j` of `V`, so `Vᵀ K` consists of
the corresponding columns of `Vᵀ V = 1`. -/
theorem vt_mul_kmat (m n : ℕ) (V : Matrix (Fin n) (Fin n) ℝ)
    (hV : Vᵀ * V = 1) (a : Fin n) (j : Fin (n - min m n)) :
    (Vᵀ * Kmat m n V) a j = if (a : ℕ) = min m n + (j : ℕ) then 1 else 0 := by
  have hlt : min m n + (j : ℕ) < n := by have h := j.isLt; omega
  have key : (Vᵀ * Kmat m n V) a j = (Vᵀ * V) a ⟨min m n + (j : ℕ), hlt⟩ := by
    simp [Matrix.mul_apply, Kmat, Matrix.transpose_apply]
  rw [key, hV, Matrix.one_apply]
  by_cases h : (a : ℕ) = min m n + (j : ℕ)
  · rw [if_pos (by exact Fin.ext h), if_pos h]
  · rw [if_neg (by intro hc; exact h (by simpa [Fin.ext_iff] using hc)), if_neg h]

/-- The columns of `K` are orthonormal: `Kᵀ K = 1`. -/
theorem ktk_eq_one (m n : ℕ) (V : Matrix (Fin n) (Fin n) ℝ)
    (hV : Vᵀ * V = 1) : (Kmat m n V)ᵀ * Kmat m n V = 1 := by
  ext j k
  have hj : min m n + (j : ℕ) < n := by have h := j.isLt; omega
  have hk : min m n + (k : ℕ) < n := by have h := k.isLt; omega
  have key : ((Kmat m n V)ᵀ * Kmat m n V) j k
      = (Vᵀ * V) ⟨min m n + (j : ℕ), hj⟩ ⟨min m n + (k : ℕ), hk⟩ := by
    simp [Matrix.mul_apply, Kmat, Matrix.transpose_apply]
  rw [key, hV, Matrix.one_apply, Matrix.one_apply]
  by_cases h : j = k
  · subst h; rw [if_pos rfl, if_pos rfl]
  · rw [if_neg, if_neg h]
    intro hc
    exact h (by
      have := (Fin.ext_iff.mp hc)
      simp only at this
      exact Fin.ext (by omega))

/-- `Σ (Vᵀ K) = 0`: the kernel columns of `V` are annihilated by the
(padded) singular value matrix. -/
theorem sigma_mul_vtk (m n : ℕ) (S : Fin (min m n) → ℝ)
    (V : Matrix (Fin n) (Fin n) ℝ) (hV : Vᵀ * V = 1) :
    sigmaMat m n S * (Vᵀ * Kmat m n V) = 0 := by
  ext i j
  rw [Matrix.mul_apply]
  apply Finset.sum_eq_zero
  intro a _
  by_cases h : (i : ℕ) = (a : ℕ) ∧ (a : ℕ) < min m n
  · rw [vt_mul_kmat m n V hV a j, if_neg (by omega)]
    exact mul_zero _
  · have hz : sigmaMat m n S i a = 0 := by
      simp only [sigmaMat, Matrix.of_apply]
      rw [dif_neg h]
    rw [hz, zero_mul]

/-- `A K = 0`: every column of `K` lies in the kernel of `A`. -/
theorem a_mul_kmat {m n : ℕ} {A : Matrix (Fin m) (Fin n) ℝ}
    (d : SVDData m n A) : A * Kmat m n d.V = 0 := by
  obtain ⟨U, S, V, hU, hV, hA⟩ := d
  show A * Kmat m n V = 0
  rw [hA, Matrix.mul_assoc, Matrix.mul_assoc, sigma_mul_vtk m n S V hV,
    Matrix.mul_zero]

/-- `P` is symmetric. -/
theorem pmat_symm (m n : ℕ) (V : Matrix (Fin n) (Fin n) ℝ) :
    (Pmat m n V)ᵀ = Pmat m n V := by
  rw [Pmat, Matrix.transpose_mul, Matrix.transpose_transpose]

/-- `P` is idempotent. -/
theorem pmat_idem (m n : ℕ) (V : Matrix (Fin n) (Fin n) ℝ)
    (hV : Vᵀ * V = 1) : Pmat m n V * Pmat m n V = Pmat m n V := by
  rw [Pmat]
  calc Kmat m n V * (Kmat m n V)ᵀ * (Kmat m n V * (Kmat m n V)ᵀ)
      = Kmat m n V * ((Kmat m n V)ᵀ * Kmat m n V) * (Kmat m n V)ᵀ := by
        rw [Matrix.mul_assoc, Matrix.mul_assoc, Matrix.mul_assoc]
    _ = Kmat m n V * (Kmat m n V)ᵀ := by
        rw [ktk_eq_one m n V hV, Matrix.mul_one]

/-- `A P = 0`. -/
theorem a_mul_pmat {m n : ℕ} {A : Matrix (Fin m) (Fin n) ℝ}
    (d : SVDData m n A) : A * Pmat m n d.V = 0 := by
  rw [Pmat, ← Matrix.mul_assoc, a_mul_kmat d, Matrix.zero_mul]

/- ### Least-squares facts -/

/-- The residual is nonnegative. -/
theorem resid_nonneg {m n : ℕ} (A : Matrix (Fin m) (Fin n) ℝ) (b : Fin m → ℝ)
    (x : Fin n → ℝ) : 0 ≤ resid A b x :=
  Finset.sum_nonneg fun _ _ => sq_nonneg _

/-- Zero residual is exact solvability. -/
theorem resid_eq_zero_iff {m n : ℕ} (A : Matrix (Fin m) (Fin n) ℝ)
    (b : Fin m → ℝ) (x : Fin n → ℝ) :
    resid A b x = 0 ↔ A.mulVec x = b := by
  constructor
  · intro h
    funext i
    have hall := (Finset.sum_eq_zero_iff_of_nonneg
      (fun i _ => sq_nonneg (A.mulVec x i - b i))).mp h i (Finset.mem_univ i)
    have := sq_eq_zero_iff.mp hall
    linarith
  · intro h
    rw [resid]
    apply Finset.sum_eq_zero
    intro i _
    rw [h]
    ring

/-- On a consistent system the least-squares solution is exact. -/
theorem lstsq_exact {m n : ℕ} {A : Matrix (Fin m) (Fin n) ℝ} {b : Fin m → ℝ}
    (l : LstsqData m n A b) (h : ∃ y, A.mulVec y = b) :
    A.mulVec l.solution = b := by
  obtain ⟨y, hy⟩ := h
  have h1 := l.h_min_resid y
  have h2 : resid A b y = 0 := (resid_eq_zero_iff A b y).mpr hy
  have h3 : resid A b l.solution = 0 :=
    le_antisymm (h2 ▸ h1) (resid_nonneg A b l.solution)
  exact (resid_eq_zero_iff A b l.solution).mp h3

/-- A vector in the row space of `A` is orthogonal to the kernel of `A`. -/
theorem rowspace_orth_kernel {m n : ℕ} (A : Matrix (Fin m) (Fin n) ℝ)
    (c : Fin m → ℝ) (z : Fin n → ℝ) (hz : A.mulVec z = 0) :
    ∑ j, A.vecMul c j * z j = 0 := by
  have h : A.vecMul c ⬝ᵥ z = c ⬝ᵥ A.mulVec z := (Matrix.dotProduct_mulVec c A z).symm
  rw [hz] at h
  simpa [Matrix.dotProduct] using h

/-- Pythagoras for the squared norm along an orthogonal direction. -/
theorem sumSq_add_of_orth {n : ℕ} (v z : Fin n → ℝ)
    (h : ∑ j, v j * z j = 0) : sumSq (v + z) = sumSq v + sumSq z := by
  have expand : ∀ j, (v j + z j) ^ 2 = v j ^ 2 + 2 * (v j * z j) + z j ^ 2 := by
    intro j; ring
  calc sumSq (v + z) = ∑ j, (v j ^ 2 + 2 * (v j * z j) + z j ^ 2) := by
        rw [sumSq]
        exact Finset.sum_congr rfl fun j _ => by rw [Pi.add_apply, expand j]
    _ = ∑ j, v j ^ 2 + 2 * ∑ j, v j * z j + ∑ j, z j ^ 2 := by
        rw [Finset.sum_add_distrib, Finset.sum_add_distrib, Finset.mul_sum]
    _ = sumSq v + sumSq z := by rw [h, sumSq, sumSq]; ring

/-- Uniqueness of the minimum-norm solution of a consistent system: a
solution of `A x = b` whose norm does not exceed that of a solution lying in
the row space of `A` is that row-space solution. -/
theorem minNorm_unique {m n : ℕ} (A : Matrix (Fin m) (Fin n) ℝ)
    (b : Fin m → ℝ) (c : Fin m → ℝ) (v0 : Fin n → ℝ)
    (hrow : v0 = A.vecMul c) (hb : A.mulVec v0 = b)
    (w : Fin n → ℝ) (hw : A.mulVec w = b) (hmin : sumSq w ≤ sumSq v0) :
    w = v0 := by
  subst hrow
  have hz : A.mulVec (w - A.vecMul c) = 0 := by
    rw [Matrix.mulVec_sub, hb, hw, sub_self]
  have horth : ∑ j, A.vecMul c j * (w - A.vecMul c) j = 0 :=
    rowspace_orth_kernel A c (w - A.vecMul c) hz
  set v0 := A.vecMul c with hv0
  have hsplit : sumSq w = sumSq v0 + sumSq (w - v0) := by
    have hw' : w = v0 + (w - v0) := by funext j; simp
    calc sumSq w = sumSq (v0 + (w - v0)) := by rw [← hw']
      _ = sumSq v0 + sumSq (w - v0) := sumSq_add_of_orth v0 (w - v0) horth
  have hle : sumSq (w - v0) ≤ 0 := by linarith
  have hzero : sumSq (w - v0) = 0 :=
    le_antisymm hle (Finset.sum_nonneg fun j _ => sq_nonneg _)
  have hall := (Finset.sum_eq_zero_iff_of_nonneg
    (fun j _ => sq_nonneg ((w - v0) j))).mp hzero
  funext j
  have hj := sq_eq_zero_iff.mp (hall j (Finset.mem_univ j))
  have : w j - v0 j = 0 := by simpa using hj
  linarith

/- ### Facts about the affine projector -/

/-- The constraint value of any projected vector equals the constraint value
of the particular solution `v`: `A (v + P (x − v)) = A v`, because `A P = 0`. -/
theorem a_mulVec_projectFun {m n : ℕ} {A : Matrix (Fin m) (Fin n) ℝ}
    (d : SVDData m n A) (v x : Fin n → ℝ) :
    A.mulVec (projectFun (Pmat m n d.V) v x) = A.mulVec v := by
  rw [projectFun, Matrix.mulVec_add, Matrix.mulVec_mulVec, a_mul_pmat d,
    Matrix.zero_mulVec, add_zero]

/-- Idempotence of the affine projector, given `P P = P`. -/
theorem projectFun_idem {n : ℕ} (P : Matrix (Fin n) (Fin n) ℝ)
    (hP : P * P = P) (v x : Fin n → ℝ) :
    projectFun P v (projectFun P v x) = projectFun P v x := by
  simp only [projectFun]
  rw [add_sub_cancel_left, Matrix.mulVec_mulVec, hP]

/-- The particular solution is a fixed point of the affine projector. -/
theorem projectFun_fixed {n : ℕ} (P : Matrix (Fin n) (Fin n) ℝ)
    (v : Fin n → ℝ) : projectFun P v v = v := by
  rw [projectFun, sub_self, Matrix.mulVec_zero, add_zero]

/- ### A concrete full-row-rank consistent system with rational SVD data -/

/-- A concrete `1 × 2` full-row-rank constraint matrix used to instantiate
the collaborator contracts on explicit data. -/
def Aex : Matrix (Fin 1) (Fin 2) ℝ :=
  Matrix.of ![![1, 0]]

/-- A right-hand side making `Aex x = bex` consistent. -/
def bex : Fin 1 → ℝ :=
  ![1]

/-- The residual of the system `Aex x = bex` in closed form. -/
theorem resid_ex (y : Fin 2 → ℝ) : resid Aex bex y = (y 0 - 1) ^ 2 := by
  simp [resid, Aex, bex, Matrix.mulVec, Matrix.dotProduct, Fin.sum_univ_two]

/-- The squared norm on `Fin 2` in closed form. -/
theorem sumSq_two (y : Fin 2 → ℝ) : sumSq y = y 0 ^ 2 + y 1 ^ 2 := by
  simp [sumSq, Fin.sum_univ_two]

/-- Explicit SVD data for `Aex`: `U = 1`, `S = (1)`, `V = 1`. -/
def dex : SVDData 1 2 Aex where
  U := 1
  S := fun _ => 1
  V := 1
  hU := by rw [Matrix.transpose_one, Matrix.mul_one]
  hV := by rw [Matrix.transpose_one, Matrix.mul_one]
  hA := by
    rw [Matrix.transpose_one, Matrix.mul_one, Matrix.one_mul]
    ext i j
    fin_cases i <;> fin_cases j <;> simp [Aex, sigmaMat]

/-- Explicit least-squares data for `Aex x = bex`: the solution `(1, 0)`. -/
def lex : LstsqData 1 2 Aex bex where
  solution := ![1, 0]
  h_min_resid := by
    intro y
    rw [resid_ex, resid_ex]
    have h : ((![1, 0] : Fin 2 → ℝ) 0 - 1) ^ 2 = 0 := by norm_num
    rw [h]
    exact sq_nonneg _
  h_min_norm := by
    intro y hy
    rw [resid_ex, resid_ex] at hy
    have h0 : ((![1, 0] : Fin 2 → ℝ) 0 - 1) ^ 2 = 0 := by norm_num
    rw [h0] at hy
    have h1 : (y 0 - 1) ^ 2 = 0 := le_antisymm hy (sq_nonneg _)
    have h2 : y 0 = 1 := by
      have := sq_eq_zero_iff.mp h1
      linarith
    rw [sumSq_two, sumSq_two, h2]
    norm_num
    positivity

/- ### The autodiff gradient of the loss -/

/-- As a function of the single coordinate `p i`, the loss is
`t ↦ t log t + (terms without i)`, whose derivative at `p i ≠ 0` is
`log (p i) + 1`. -/
theorem hasDerivAt_lossFun_update (n : ℕ) (p : Fin n → ℝ) (i : Fin n)
    (h : p i ≠ 0) :
    HasDerivAt (fun t => lossFun n (Function.update p i t))
      (Real.log (p i) + 1) (p i) := by
  have key : ∀ t : ℝ, lossFun n (Function.update p i t)
      = t * Real.log t + ∑ j in Finset.univ.erase i, p j * Real.log (p j) := by
    intro t
    rw [lossFun, ← Finset.add_sum_erase Finset.univ _ (Finset.mem_univ i)]
    congr 1
    · rw [Function.update_same]
    · exact Finset.sum_congr rfl fun j hj => by
        rw [Function.update_noteq (Finset.ne_of_mem_erase hj)]
  have hfun : (fun t => lossFun n (Function.update p i t))
      = fun t => t * Real.log t
        + ∑ j in Finset.univ.erase i, p j * Real.log (p j) :=
    funext key
  rw [hfun]
  exact (Real.hasDerivAt_mul_log h).add_const _

/-- The autodiff gradient of the loss at a positive point, in closed form. -/
theorem autodiffGrad_eq (n : ℕ) (p : Fin n → ℝ) (i : Fin n) (h : p i ≠ 0) :
    autodiffGrad n p i = Real.log (p i) + 1 := by
  rw [autodiffGrad]
  exact (hasDerivAt_lossFun_update n p i h).deriv

/- ### Claim theorems -/

/-- C1: for every input vector `x`, the projector returned by
`_compute_constraint_projector` restores the linear constraints:
`A (project x) = b`, assuming `A` has full row rank (expressed as
surjectivity of `x ↦ A x`) and the system `A x = b` is consistent. Proved
for every constraint system, hence in particular for the dice system
`diceA n`, `diceB mc` built by the notebook. -/
theorem project_restores_constraints (m n : ℕ) (A : Matrix (Fin m) (Fin n) ℝ)
    (b : Fin m → ℝ) (d : SVDData m n A) (l : LstsqData m n A b)
    (hrank : Function.Surjective A.mulVec) (hcons : ∃ y, A.mulVec y = b)
    (x : Fin n → ℝ) :
    A.mulVec (compute_constraint_projector d l x) = b := by
  have hv : A.mulVec l.solution = b := lstsq_exact l hcons
  show A.mulVec (projectFun (Pmat m n d.V) l.solution x) = b
  rw [a_mulVec_projectFun d, hv]

/-- Witness for C1 at the explicit system `Aex x = bex` with input `(5, 7)`. -/
theorem project_restores_constraints_witness :
    (Function.Surjective Aex.mulVec ∧ (∃ y, Aex.mulVec y = bex)) ∧
    Aex.mulVec (compute_constraint_projector dex lex ![5, 7]) = bex := by
  have hsurj : Function.Surjective Aex.mulVec := by
    intro y
    refine ⟨![y 0, 0], ?_⟩
    funext i
    fin_cases i
    simp [Aex, Matrix.mulVec, Matrix.dotProduct, Fin.sum_univ_two]
  have hcons : ∃ y, Aex.mulVec y = bex := by
    refine ⟨![1, 0], ?_⟩
    funext i
    fin_cases i
    simp [Aex, bex, Matrix.mulVec, Matrix.dotProduct, Fin.sum_univ_two]
  exact ⟨⟨hsurj, hcons⟩,
    project_restores_constraints 1 2 Aex bex dex lex hsurj hcons ![5, 7]⟩

/-- C3: for every constraint system with full-row-rank `A` (surjective
`x ↦ A x`) and consistent `b`, the projector is idempotent:
`project (project x) = project x` for every `x`. -/
theorem project_idempotent (m n : ℕ) (A : Matrix (Fin m) (Fin n) ℝ)
    (b : Fin m → ℝ) (d : SVDData m n A) (l : LstsqData m n A b)
    (hrank : Function.Surjective A.mulVec) (hcons : ∃ y, A.mulVec y = b)
    (x : Fin n → ℝ) :
    compute_constraint_projector d l (compute_constraint_projector d l x)
      = compute_constraint_projector d l x :=
  projectFun_idem (Pmat m n d.V) (pmat_idem m n d.V d.hV) l.solution x

/-- Witness for C3 at the explicit system `Aex x = bex` with input `(2, 3)`. -/
theorem project_idempotent_witness :
    (Function.Surjective Aex.mulVec ∧ (∃ y, Aex.mulVec y = bex)) ∧
    compute_constraint_projector dex lex (compute_constraint_projector dex lex ![2, 3])
      = compute_constraint_projector dex lex ![2, 3] := by
  have hsurj : Function.Surjective Aex.mulVec := by
    intro y
    refine ⟨![y 0, 0], ?_⟩
    funext i
    fin_cases i
    simp [Aex, Matrix.mulVec, Matrix.dotProduct, Fin.sum_univ_two]
  have hcons : ∃ y, Aex.mulVec y = bex := by
    refine ⟨![1, 0], ?_⟩
    funext i
    fin_cases i
    simp [Aex, bex, Matrix.mulVec, Matrix.dotProduct, Fin.sum_univ_two]
  exact ⟨⟨hsurj, hcons⟩,
    project_idempotent 1 2 Aex bex dex lex hsurj hcons ![2, 3]⟩

/-- C4: the matrix `P = K Kᵀ` built by `_compute_constraint_projector` from
the last columns of `V` is symmetric, idempotent and satisfies `A P = 0`
(every column of `P` lies in the kernel of `A`); `P` is a value computed
once from the SVD and never mutated (the embedding is pure). -/
theorem pmat_invariants (m n : ℕ) (A : Matrix (Fin m) (Fin n) ℝ)
    (d : SVDData m n A) :
    (Pmat m n d.V)ᵀ = Pmat m n d.V ∧
    Pmat m n d.V * Pmat m n d.V = Pmat m n d.V ∧
    A * Pmat m n d.V = 0 :=
  ⟨pmat_symm m n d.V, pmat_idem m n d.V d.hV, a_mul_pmat d⟩

/-- C5: one `loss.backward(); optimizer.step()` of SGD equals the
closed-form update `pᵢ ← pᵢ − lr (log pᵢ + 1)` whenever all entries of `p`
are positive. -/
theorem sgd_step_eq_closed_form (n : ℕ) (lr : ℝ) (p : Fin n → ℝ)
    (hp : ∀ i, 0 < p i) : sgdStep n lr p = closedFormStep n lr p := by
  funext i
  show p i - lr * autodiffGrad n p i = p i - lr * (Real.log (p i) + 1)
  rw [autodiffGrad_eq n p i (ne_of_gt (hp i))]

/-- Witness for C5 at the all-ones vector on two faces with `lr = 1e-3`. -/
theorem sgd_step_eq_closed_form_witness :
    (∀ i : Fin 2, (0 : ℝ) < (fun _ : Fin 2 => (1 : ℝ)) i) ∧
    sgdStep 2 (1 / 1000) (fun _ => 1) = closedFormStep 2 (1 / 1000) (fun _ => 1) :=
  ⟨fun _ => one_pos,
    sgd_step_eq_closed_form 2 (1 / 1000) (fun _ => 1) (fun _ => one_pos)⟩

/- ### C6: a deficient-rank, inconsistent system on which construction
still goes through -/

/-- A rank-deficient `2 × 2` matrix (second row zero). -/
def Abad : Matrix (Fin 2) (Fin 2) ℝ :=
  Matrix.of ![![1, 0], ![0, 0]]

/-- A right-hand side making `Abad x = bbad` inconsistent. -/
def bbad : Fin 2 → ℝ :=
  ![0, 1]

/-- Row 1 of `Abad` is zero, so component 1 of `Abad x` is always zero. -/
theorem abad_mulVec_one (y : Fin 2 → ℝ) : Abad.mulVec y 1 = 0 := by
  simp [Abad, Matrix.mulVec, Matrix.dotProduct, Fin.sum_univ_two]

/-- The residual of `Abad x = bbad` in closed form. -/
theorem resid_bad (y : Fin 2 → ℝ) : resid Abad bbad y = y 0 ^ 2 + 1 := by
  simp [resid, Abad, bbad, Matrix.mulVec, Matrix.dotProduct, Fin.sum_univ_two]

/-- Explicit SVD data for `Abad`: `U = 1`, `S = (1, 0)`, `V = 1` (the zero
singular value records the rank deficiency; `torch.linalg.svd` still returns
`min m n` singular values). -/
def dbad : SVDData 2 2 Abad where
  U := 1
  S := ![1, 0]
  V := 1
  hU := by rw [Matrix.transpose_one, Matrix.mul_one]
  hV := by rw [Matrix.transpose_one, Matrix.mul_one]
  hA := by
    rw [Matrix.transpose_one, Matrix.mul_one, Matrix.one_mul]
    ext i j
    fin_cases i <;> fin_cases j <;> simp [Abad, sigmaMat]

/-- Explicit least-squares data for the inconsistent system `Abad x = bbad`:
the minimum-norm residual minimizer is `(0, 0)`, with residual `1 > 0`. -/
def lbad : LstsqData 2 2 Abad bbad where
  solution := ![0, 0]
  h_min_resid := by
    intro y
    rw [resid_bad, resid_bad]
    have h : ((![0, 0] : Fin 2 → ℝ) 0) ^ 2 = 0 := by norm_num
    rw [h]
    nlinarith [sq_nonneg (y 0)]
  h_min_norm := by
    intro y hy
    rw [sumSq_two, sumSq_two]
    norm_num
    positivity

/-- C6 counterexample: the constraint matrix `Abad` has deficient row rank
(`x ↦ Abad x` is not surjective) and `Abad x = bbad` is inconsistent, yet
`_compute_constraint_projector` does not fail: it returns a projector whose
output (here at input `(3, 4)`) violates the constraints, and the claimed
`ConstructionError` never occurs (the source performs no rank or consistency
check and has no failure path). -/
theorem construction_no_failure_counterexample :
    (¬ Function.Surjective Abad.mulVec) ∧
    (¬ ∃ x, Abad.mulVec x = bbad) ∧
    Abad.mulVec (compute_constraint_projector dbad lbad ![3, 4]) ≠ bbad := by
  refine ⟨?_, ?_, ?_⟩
  · intro hsurj
    obtain ⟨x, hx⟩ := hsurj bbad
    have h1 := congrFun hx 1
    rw [abad_mulVec_one x] at h1
    simp [bbad] at h1
  · rintro ⟨x, hx⟩
    have h1 := congrFun hx 1
    rw [abad_mulVec_one x] at h1
    simp [bbad] at h1
  · intro hx
    have h1 := congrFun hx 1
    rw [abad_mulVec_one _] at h1
    simp [bbad] at h1

/-- C6 (amended): construction never fails — `_compute_constraint_projector`
is total, performing no rank or consistency check; the constraint value of
every projected vector equals `A v` for the least-squares `v`, so the
constraints are restored exactly when the system is consistent, and on an
inconsistent or rank-deficient system construction silently succeeds with a
constraint-violating projector. -/
theorem construction_total_constraint_value (m n : ℕ)
    (A : Matrix (Fin m) (Fin n) ℝ) (b : Fin m → ℝ)
    (d : SVDData m n A) (l : LstsqData m n A b) (x : Fin n → ℝ) :
    A.mulVec (compute_constraint_projector d l x) = A.mulVec l.solution :=
  a_mulVec_projectFun d l.solution x

/- ### C7: the particular solution for six faces and mean 4.5 -/

/-- The exact minimum-norm solution of the dice-6 system:
`vᵢ = −1/30 + i · 2/35` for face values `i = 1, …, 6`. -/
def v6exact : Fin 6 → ℝ :=
  ![1 / 42, 17 / 210, 29 / 210, 41 / 210, 53 / 210, 13 / 42]

/-- The four-decimal rounding of `v6exact` quoted by the spec. -/
def v6dec : Fin 6 → ℝ :=
  ![238 / 10000, 810 / 10000, 1381 / 10000, 1952 / 10000, 2524 / 10000,
    3095 / 10000]

/-- Row-space coefficients exhibiting `v6exact` as `Aᵀ c`. -/
def cvec6 : Fin 2 → ℝ :=
  ![-(1 / 30), 2 / 35]

/-- `v6exact` solves the dice-6 constraint system with mean `4.5`. -/
theorem diceA6_mulVec_v6exact : (diceA 6).mulVec v6exact = diceB (9 / 2) := by
  funext i
  fin_cases i <;>
    (simp [diceA, diceB, v6exact, Matrix.mulVec, Matrix.dotProduct,
      Fin.sum_univ_succ]
     norm_num)

/-- `v6exact` lies in the row space of the dice-6 constraint matrix. -/
theorem v6exact_in_rowspace : v6exact = (diceA 6).vecMul cvec6 := by
  funext j
  fin_cases j <;>
    (simp [diceA, v6exact, cvec6, Matrix.vecMul, Matrix.dotProduct,
      Fin.sum_univ_succ]
     norm_num [show ((3 : Fin 6) : ℕ) = 3 from rfl,
       show ((4 : Fin 6) : ℕ) = 4 from rfl,
       show ((5 : Fin 6) : ℕ) = 5 from rfl,
       show (![(1 : ℝ) / 42, 17 / 210, 29 / 210, 41 / 210, 53 / 210,
         13 / 42] : Fin 6 → ℝ) 5 = 13 / 42 from rfl])

/-- C7: for `N = 6` faces and target mean `4.5`, the least-squares solution
`v` equals `v6exact`, whose entries agree with
`(0.0238, 0.0810, 0.1381, 0.1952, 0.2524, 0.3095)` to four decimal places
(error below half an ulp, `5·10⁻⁵`), and `v` is a fixed point of the
projector: `project v = v` for the projector built from any kernel matrix
`P`. -/
theorem lstsq_dice6_particular_solution (P : Matrix (Fin 6) (Fin 6) ℝ)
    (l : LstsqData 2 6 (diceA 6) (diceB (9 / 2))) :
    l.solution = v6exact ∧
    (∀ i, |l.solution i - v6dec i| < 5 / 100000) ∧
    projectFun P l.solution l.solution = l.solution := by
  have hb : (diceA 6).mulVec l.solution = diceB (9 / 2) :=
    lstsq_exact l ⟨v6exact, diceA6_mulVec_v6exact⟩
  have h0 : resid (diceA 6) (diceB (9 / 2)) v6exact = 0 :=
    (resid_eq_zero_iff _ _ _).mpr diceA6_mulVec_v6exact
  have hmin : sumSq l.solution ≤ sumSq v6exact :=
    l.h_min_norm v6exact (by rw [h0]; exact resid_nonneg _ _ _)
  have hsol : l.solution = v6exact :=
    minNorm_unique (diceA 6) (diceB (9 / 2)) cvec6 v6exact v6exact_in_rowspace
      diceA6_mulVec_v6exact l.solution hb hmin
  refine ⟨hsol, ?_, projectFun_fixed P l.solution⟩
  intro i
  rw [hsol]
  fin_cases i <;> norm_num [v6exact, v6dec, abs_lt]

/- ### C8: two faces, mean 1.5 — trivial kernel, constant projector -/

/-- With `m = n = 2` the kernel block `K` has no columns, so `P = K Kᵀ = 0`
regardless of `V`. -/
theorem pmat_fin2_eq_zero (V2 : Matrix (Fin 2) (Fin 2) ℝ) :
    Pmat 2 2 V2 = 0 := by
  ext i j
  rw [Pmat, Matrix.mul_apply]
  apply Finset.sum_eq_zero
  intro a _
  exact absurd a.isLt (by omega)

/-- The projector with `P = 0` is the constant function returning `v`. -/
theorem projectFun_zero {n : ℕ} (v x : Fin n → ℝ) :
    projectFun (0 : Matrix (Fin n) (Fin n) ℝ) v x = v := by
  rw [projectFun, Matrix.zero_mulVec, add_zero]

/-- The dice-2 constraint map in closed form. -/
theorem diceA2_mulVec (y : Fin 2 → ℝ) :
    (diceA 2).mulVec y = ![y 0 + y 1, y 0 + 2 * y 1] := by
  funext i
  fin_cases i <;>
    simp only [diceA, Matrix.of_apply, Matrix.cons_val_zero, Matrix.cons_val_one,
      Matrix.head_cons, Matrix.mulVec, Matrix.dotProduct, Fin.sum_univ_two,
      Fin.val_zero, Fin.val_one, Fin.isValue] <;>
    norm_num

/-- C8: for `N = 2` faces with target mean `1.5`, the `2 × 2` constraint
matrix has trivial kernel (its linear map is injective), the constructed `P`
is the zero matrix, the projector is the constant function returning the
least-squares solution `v = (1/2, 1/2)`, and from the first iteration on the
optimization loop leaves the projected vector fixed at `v`. -/
theorem dice2_constant_projector (V2 : Matrix (Fin 2) (Fin 2) ℝ)
    (l : LstsqData 2 2 (diceA 2) (diceB (3 / 2)))
    (lr : ℝ) (p0 : Fin 2 → ℝ) (k : ℕ) :
    Function.Injective (diceA 2).mulVec ∧
    Pmat 2 2 V2 = 0 ∧
    (∀ x, projectFun (Pmat 2 2 V2) l.solution x = l.solution) ∧
    l.solution = ![1 / 2, 1 / 2] ∧
    runLoop 2 (projectFun (Pmat 2 2 V2) l.solution) lr (k + 1) p0
      = l.solution := by
  have hinj : Function.Injective (diceA 2).mulVec := by
    intro x y h
    rw [diceA2_mulVec, diceA2_mulVec] at h
    have h0 := congrFun h 0
    have h1 := congrFun h 1
    simp at h0 h1
    have e1 : x 1 = y 1 := by linarith
    have e0 : x 0 = y 0 := by linarith
    funext i
    fin_cases i
    · exact e0
    · exact e1
  have hy : (diceA 2).mulVec ![1 / 2, 1 / 2] = diceB (3 / 2) := by
    rw [diceA2_mulVec]
    funext i
    fin_cases i <;> (simp [diceB]; norm_num)
  have hsol : l.solution = ![1 / 2, 1 / 2] := by
    apply hinj
    rw [hy, lstsq_exact l ⟨![1 / 2, 1 / 2], hy⟩]
  have hP := pmat_fin2_eq_zero V2
  have hconst : ∀ x, projectFun (Pmat 2 2 V2) l.solution x = l.solution := by
    intro x
    rw [hP, projectFun_zero]
  have hstep : ∀ q, loopStep 2 (projectFun (Pmat 2 2 V2) l.solution) lr q
      = l.solution := by
    intro q
    rw [loopStep, hconst]
  refine ⟨hinj, hP, hconst, hsol, ?_⟩
  rw [runLoop, Function.iterate_succ_apply, hstep p0]
  exact Function.iterate_fixed (hstep l.solution) k

/- ### C9: determinism, C10: frame condition -/

/-- C9: the computation is deterministic — construction followed by the
optimization loop is a pure function of the constraint system, the
collaborator outputs (SVD and least-squares data), the learning rate, the
iteration count and the initial vector; two executions on equal inputs
produce the same final vector and the same entropy. No randomness or
external input is consumed anywhere in the embedding. -/
theorem run_deterministic (m n : ℕ) (A : Matrix (Fin m) (Fin n) ℝ)
    (b : Fin m → ℝ) (d1 d2 : SVDData m n A) (l1 l2 : LstsqData m n A b)
    (lr1 lr2 : ℝ) (it1 it2 : ℕ) (p1 p2 : Fin n → ℝ)
    (hd : d1 = d2) (hl : l1 = l2) (hlr : lr1 = lr2) (hit : it1 = it2)
    (hp : p1 = p2) :
    runLoop n (compute_constraint_projector d1 l1) lr1 it1 p1
      = runLoop n (compute_constraint_projector d2 l2) lr2 it2 p2 ∧
    entropyOf (runLoop n (compute_constraint_projector d1 l1) lr1 it1 p1)
      = entropyOf (runLoop n (compute_constraint_projector d2 l2) lr2 it2 p2) := by
  subst hd
  subst hl
  subst hlr
  subst hit
  subst hp
  exact ⟨rfl, rfl⟩

/-- Witness for C9: two runs of two iterations from the all-ones vector on
the explicit system agree. -/
theorem run_deterministic_witness :
    (dex = dex ∧ lex = lex ∧ (1 / 1000 : ℝ) = 1 / 1000 ∧ (2 : ℕ) = 2 ∧
      (fun _ : Fin 2 => (1 : ℝ)) = fun _ : Fin 2 => (1 : ℝ)) ∧
    (runLoop 2 (compute_constraint_projector dex lex) (1 / 1000) 2 (fun _ => 1)
      = runLoop 2 (compute_constraint_projector dex lex) (1 / 1000) 2 (fun _ => 1) ∧
    entropyOf (runLoop 2 (compute_constraint_projector dex lex) (1 / 1000) 2 (fun _ => 1))
      = entropyOf (runLoop 2 (compute_constraint_projector dex lex) (1 / 1000) 2 (fun _ => 1))) :=
  ⟨⟨rfl, rfl, rfl, rfl, rfl⟩,
    run_deterministic 1 2 Aex bex dex dex lex lex (1 / 1000) (1 / 1000) 2 2
      (fun _ => 1) (fun _ => 1) rfl rfl rfl rfl rfl⟩

/-- C10: `enforce_constraint` changes only the field `p` (to the projection
of the old `p`, a vector of the same length `n` by typing), leaving
`num_faces`, `mean_constraint` and the captured projector (hence its
matrices `P` and `v`) unchanged; `forward` is a pure function into `ℝ` and
by construction modifies no field. -/
theorem enforce_constraint_frame (n : ℕ) (s : MaxEntropyDice n) :
    (enforce_constraint s).num_faces = s.num_faces ∧
    (enforce_constraint s).mean_constraint = s.mean_constraint ∧
    (enforce_constraint s).constraint_projector = s.constraint_projector ∧
    (enforce_constraint s).p = s.constraint_projector s.p ∧
    forward s = entropyOf s.p :=
  ⟨rfl, rfl, rfl, rfl, rfl⟩
